import Mathlib

/-!
Verification of the Genertools generator/iterator library.

The Rust generators are modelled as explicit state machines: a `Generator`
carries a `resume` function threading a state of type `sg` and reporting
either `Yielded y` or `Complete r` (mirroring `std::ops::GeneratorState`).
The iterator wrappers (`GenIter` in src/geniter.rs, `Iter` in
src/gentrait.rs) keep the generator in an `Option` slot: `next` takes the
generator out, resumes it once, puts it back on a yield and discards it on
completion.

The sequence-construction utilities of src/iter.rs are generator bodies
whose only effect is their yield trace; they are embedded as functions from
the underlying (finite) sequence to the list of yielded items, following
the control flow of each body.  The `Filter` combinator of src/gentrait.rs
may loop forever inside one `resume`, so its resume is embedded as a
big-step relation; `alternate_by` may spin forever without yielding, so its
generator is embedded as a fuelled state machine.
-/

namespace Genertools

/-- Mirror of `std::ops::GeneratorState`: one resume step either yields a
value or completes with a final result. -/
inductive GeneratorState (Y : Type u) (R : Type v) where
  | Yielded (y : Y) : GeneratorState Y R
  | Complete (r : R) : GeneratorState Y R
  deriving DecidableEq, Repr

/-- A suspendable computation: `resume` advances the state one step and
reports a `GeneratorState`.  This is the shallow embedding of a Rust
`Generator` with explicit state passing instead of mutation. -/
structure Generator (sg : Type u) (Y : Type v) (R : Type w) where
  resume : sg → GeneratorState Y R × sg

/-- The generator starting at state `s` yields exactly the finite list `vs`
and then completes with result `r`. -/
inductive Yields (g : Generator sg Y R) : sg → List Y → R → Prop where
  | complete {s s' : sg} {r : R} :
      g.resume s = (GeneratorState.Complete r, s') → Yields g s [] r
  | yield {s s' : sg} {v : Y} {vs : List Y} {r : R} :
      g.resume s = (GeneratorState.Yielded v, s') → Yields g s' vs r →
      Yields g s (v :: vs) r

/-- `GenIter::next` (src/geniter.rs): take the generator out of the slot
(`none` slot means exhausted: return `none` immediately), resume it once;
on `Yielded y` store it back and return `some y`; on `Complete` leave the
slot empty and return `none`. -/
def GenIter.next (g : Generator sg Y R) : Option sg → Option Y × Option sg
  | none => (none, none)
  | some s =>
    match g.resume s with
    | (GeneratorState.Yielded y, s') => (some y, some s')
    | (GeneratorState.Complete _, _) => (none, none)

/-- The slot state after `k` calls to `GenIter.next`. -/
def GenIter.stateAfter (g : Generator sg Y R) : Nat → Option sg → Option sg
  | 0, st => st
  | k + 1, st => GenIter.stateAfter g k (GenIter.next g st).2

/-- The value returned by the `(k+1)`-st call to `GenIter.next` (counting
from `k = 0`) when starting from slot state `st`. -/
def GenIter.output (g : Generator sg Y R) (k : Nat) (st : Option sg) : Option Y :=
  (GenIter.next g (GenIter.stateAfter g k st)).1

/-- `GenTrait::next` (src/gentrait.rs): resume once through the pin,
translating `Yielded` to `some` and `Complete` to `none`. -/
def GenTrait.next (g : Generator sg Y R) (s : sg) : Option Y × sg :=
  match g.resume s with
  | (GeneratorState.Yielded y, s') => (some y, s')
  | (GeneratorState.Complete _, s') => (none, s')

/-- `Iter::next` (src/gentrait.rs): take the pin out of the slot, call
`GenTrait::next`; put the pin back only when an item was produced. -/
def Iter.next (g : Generator sg Y R) : Option sg → Option Y × Option sg
  | none => (none, none)
  | some s =>
    match GenTrait.next g s with
    | (some y, s') => (some y, some s')
    | (none, _) => (none, none)

/-- The `Map` combinator (src/gentrait.rs): resume the inner generator
once; apply `f` to a yielded value, pass a completion through unchanged. -/
def Map (g : Generator sg Y R) (f : Y → U) : Generator sg U R :=
  ⟨fun s =>
    match g.resume s with
    | (GeneratorState.Yielded y, s') => (GeneratorState.Yielded (f y), s')
    | (GeneratorState.Complete r, s') => (GeneratorState.Complete r, s')⟩

/-- Big-step semantics of one `Filter::resume` call (src/gentrait.rs): the
loop resumes the inner generator, skipping yielded values rejected by the
predicate, until an accepted value is yielded or the inner generator
completes.  A relation rather than a function because the loop need not
terminate. -/
inductive FResume (g : Generator sg Y R) (p : Y → Bool) :
    sg → GeneratorState Y R × sg → Prop where
  | accept {s s' : sg} {y : Y} :
      g.resume s = (GeneratorState.Yielded y, s') → p y = true →
      FResume g p s (GeneratorState.Yielded y, s')
  | reject {s s' : sg} {y : Y} {out : GeneratorState Y R × sg} :
      g.resume s = (GeneratorState.Yielded y, s') → p y = false →
      FResume g p s' out → FResume g p s out
  | complete {s s' : sg} {r : R} :
      g.resume s = (GeneratorState.Complete r, s') →
      FResume g p s (GeneratorState.Complete r, s')

/-- The filtered generator, repeatedly resumed via `FResume`, yields
exactly the list `vs` and then completes with `r`. -/
inductive FYields (g : Generator sg Y R) (p : Y → Bool) : sg → List Y → R → Prop where
  | done {s s' : sg} {r : R} :
      FResume g p s (GeneratorState.Complete r, s') → FYields g p s [] r
  | step {s s' : sg} {y : Y} {ys : List Y} {r : R} :
      FResume g p s (GeneratorState.Yielded y, s') → FYields g p s' ys r →
      FYields g p s (y :: ys) r

/-- A generator that yields the elements of a list in order and then
completes with `()`; used as a concrete generator in witnesses. -/
def listGen (T : Type u) : Generator (List T) T Unit :=
  ⟨fun l =>
    match l with
    | [] => (GeneratorState.Complete (), [])
    | x :: xs => (GeneratorState.Yielded x, xs)⟩

/-! ## Yield traces of the construction utilities (src/iter.rs)

The utilities build generators by `iter!`; a finite underlying iterator is
modelled as the list of its remaining items, and each utility is embedded
as the function from that list to the generator's yield trace, following
the body's control flow. -/

/-- `repeatn x n` (src/iter.rs): `for _ in 0..n { yield x }`. -/
def repeatn (x : T) : Nat → List T
  | 0 => []
  | n + 1 => x :: repeatn x n

/-- `filter_while f iter` (src/iter.rs): a `while let` loop yields items
while the predicate accepts them; on the first rejected item it breaks
(dropping that item) and a plain `for` loop yields the whole rest. -/
def filter_while (f : T → Bool) : List T → List T
  | [] => []
  | x :: xs => if f x then x :: filter_while f xs else xs

/-- `DoubleEndedIterator::next_back` on a list iterator: extract the last
element, returning it together with the remaining items. -/
def next_back (l : List T) : Option (T × List T) :=
  match l.reverse with
  | [] => none
  | y :: t => some (y, t.reverse)

/-- Loop of `alternate` (src/iter.rs): yield the front item (return if
absent), yield the back item (return if absent), repeat.  The loop
terminates because each iteration shortens the sequence; the structural
bound `fuel` only needs to be at least half the length. -/
def alternateAux : Nat → List T → List T
  | 0, _ => []
  | _ + 1, [] => []
  | fuel + 1, x :: xs =>
    match next_back xs with
    | none => [x]
    | some (y, rest) => x :: y :: alternateAux fuel rest

/-- `alternate iter` (src/iter.rs): `loop { try_yield!(iter.next());
try_yield!(iter.next_back()) }`. -/
def alternate (l : List T) : List T := alternateAux l.length l

/-- Interleaving of two lists, first list first; used to characterise
`alternate`. -/
def interleave : List T → List T → List T
  | [], ys => ys
  | x :: xs, ys => x :: interleave ys xs
  termination_by xs ys => xs.length + ys.length
  decreasing_by simp only [List.length_cons]; omega

/-- `Iterator::step_by k` on a list (k ≥ 1, as enforced by Rust's
`step_by` assertion): yield the first item, then every k-th one after. -/
def step_by (k : Nat) : List T → List T
  | [] => []
  | x :: xs => x :: step_by k (xs.drop (k - 1))
  termination_by l => l.length
  decreasing_by simp only [List.length_cons, List.length_drop]; omega

/-- `islice iter start stop step` (src/iter.rs): the eight-way match on
presence of the three options, each arm yielding every item of the
corresponding adapter composition (`skip` is `List.drop`, `take` is
`List.take`). -/
def islice (l : List T) (start stop step : Option Nat) : List T :=
  match start, stop, step with
  | none, none, none => l
  | none, none, some it_step => step_by it_step l
  | none, some it_stop, none => l.take it_stop
  | none, some it_stop, some it_step => (step_by it_step l).take it_stop
  | some it_start, none, none => l.drop it_start
  | some it_start, none, some it_step => step_by it_step (l.drop it_start)
  | some it_start, some it_stop, none => (l.drop it_start).take it_stop
  | some it_start, some it_stop, some it_step =>
      (step_by it_step (l.drop it_start)).take it_stop

/-- Modelled from the spec: the uniform composition `islice` is claimed to
equal — apply skip(start) if present, then step_by(step) if present, then
take(stop) if present, in that fixed order. -/
def isliceSpec (l : List T) (start stop step : Option Nat) : List T :=
  let l1 := match start with
    | none => l
    | some it_start => l.drop it_start
  let l2 := match step with
    | none => l1
    | some it_step => step_by it_step l1
  match stop with
  | none => l2
  | some it_stop => l2.take it_stop

/-- `std::iter::once` as a list trace. -/
def onceTrace (x : T) : List T := [x]

/-- `prepend value iter` (src/iter.rs): `once(value).chain(iter)`. -/
def prepend (value : T) (l : List T) : List T := onceTrace value ++ l

/-! ## The `alternate_by` generator as a fuelled state machine

The body of `alternate_by iter n` (src/iter.rs) is
`loop { for _ in 0..n { try_yield!(iter.next()) };
        for _ in 0..n { try_yield!(iter.next_back()) } }`.
Because with `n = 0` the loop spins forever without reaching a yield or a
return, one `resume` call is embedded as a fuelled search for the next
event, where fuel bounds the number of inner-loop exhaustion steps. -/

/-- Which inner `for` loop of the `alternate_by` body is running. -/
inductive ABPhase where
  | front
  | back
  deriving DecidableEq, Repr

/-- Suspension state of the `alternate_by` generator: the remaining items
of the double-ended iterator, the current phase, and the number of
iterations left in the current `for` loop. -/
structure ABState (T : Type u) where
  items : List T
  phase : ABPhase
  left : Nat
  deriving DecidableEq, Repr

/-- One `resume` of the `alternate_by n` generator: run the body from the
given suspension state until it yields or returns.  `none` means the fuel
ran out before either happened (with `n = 0` that is every run). -/
def abRun (n : Nat) : Nat → ABState T → Option (GeneratorState T Unit × ABState T)
  | 0, _ => none
  | fuel + 1, ⟨l, ABPhase.front, 0⟩ => abRun n fuel ⟨l, ABPhase.back, n⟩
  | fuel + 1, ⟨l, ABPhase.back, 0⟩ => abRun n fuel ⟨l, ABPhase.front, n⟩
  | _ + 1, ⟨l, ABPhase.front, j + 1⟩ =>
    match l with
    | [] => some (GeneratorState.Complete (), ⟨[], ABPhase.front, j⟩)
    | x :: xs => some (GeneratorState.Yielded x, ⟨xs, ABPhase.front, j⟩)
  | _ + 1, ⟨l, ABPhase.back, j + 1⟩ =>
    match next_back l with
    | none => some (GeneratorState.Complete (), ⟨l, ABPhase.back, j⟩)
    | some (y, rest) => some (GeneratorState.Yielded y, ⟨rest, ABPhase.back, j⟩)

/-- The suspension state at which the `alternate_by n` generator starts:
the full sequence, about to run the front loop with `n` iterations. -/
def alternateByInit (n : Nat) (l : List T) : ABState T := ⟨l, ABPhase.front, n⟩

/-! ## Stateful iterator model (for the consumption claim on `islice`)

Rust iterator adapters over a *mutable borrow* consume items from shared
state; this is embedded by threading the state explicitly. -/

/-- A stateful pull iterator: `next` returns the produced item (if any)
and the successor state.  The state is always returned, modelling a Rust
`&mut` iterator whose position persists across calls. -/
structure StIter (sg : Type u) (T : Type v) where
  next : sg → Option T × sg

/-- The iterator of `a..=b` on naturals (no overflow in range for the
inputs used): yield `lo` and advance while `lo ≤ hi`. -/
def rangeInclusive : StIter (Nat × Nat) Nat :=
  ⟨fun s => if s.1 ≤ s.2 then (some s.1, (s.1 + 1, s.2)) else (none, s)⟩

/-- `Iterator::nth k`: advance past `k` items, then return the next one;
stops early (returning `none`) if the underlying iterator runs dry. -/
def nthAux (it : StIter sg T) : Nat → sg → Option T × sg
  | 0, s => it.next s
  | k + 1, s =>
    match it.next s with
    | (none, s') => (none, s')
    | (some _, s') => nthAux it k s'

/-- `Iterator::step_by` as a stateful adapter.  Rust's `StepBy` stores
`step - 1` and a `first_take` flag: the first call forwards `next`, each
later call calls `nth (step - 1)` on the underlying iterator. -/
def stepByIt (it : StIter sg T) (stepm1 : Nat) : StIter (sg × Bool) T :=
  ⟨fun s =>
    if s.2 then
      let r := it.next s.1
      (r.1, (r.2, false))
    else
      let r := nthAux it stepm1 s.1
      (r.1, (r.2, false))⟩

/-- `Iterator::take` as a stateful adapter: forward `next` while the
counter is positive, decrementing it; once it reaches zero return `none`
without touching the underlying iterator. -/
def takeIt (it : StIter sg T) : StIter (sg × Nat) T :=
  ⟨fun s =>
    match s.2 with
    | 0 => (none, (s.1, 0))
    | m + 1 =>
      let r := it.next s.1
      (r.1, (r.2, m))⟩

/-- The `(start, stop, step) = (None, Some stop, Some step)` arm of
`islice` (src/iter.rs line 144) over a stateful iterator:
`iter.step_by(step).take(stop)`. -/
def isliceNoneSomeSome (it : StIter sg T) (step : Nat) : StIter ((sg × Bool) × Nat) T :=
  takeIt (stepByIt it (step - 1))

/-- Initial adapter state for `isliceNoneSomeSome`: underlying state `s`,
`first_take` set, `stop` items still allowed. -/
def isliceNoneSomeSomeInit (s : sg) (stop : Nat) : (sg × Bool) × Nat :=
  ((s, true), stop)

/-- Driving loop of the `islice` generator (the `g!` macro's `for` loop),
collected: call `next` until it returns `none`, accumulating the items and
returning the final state.  Fuel bounds the number of calls. -/
def collectAux (it : StIter sg T) : Nat → sg → List T × sg
  | 0, s => ([], s)
  | fuel + 1, s =>
    match it.next s with
    | (none, s') => ([], s')
    | (some x, s') =>
      let r := collectAux it fuel s'
      (x :: r.1, r.2)

/-! ## Helper lemmas -/

/-- Once the `GenIter` slot is empty it stays empty under any number of
further `next` calls. -/
theorem GenIter.stateAfter_none (g : Generator sg Y R) :
    ∀ k, GenIter.stateAfter g k none = none := by
  intro k
  induction k with
  | zero => rfl
  | succ k ih => simpa [GenIter.stateAfter, GenIter.next] using ih

/-- With an empty slot every further `next` call returns `none`. -/
theorem GenIter.output_none (g : Generator sg Y R) (k : Nat) :
    GenIter.output g k none = none := by
  simp [GenIter.output, GenIter.stateAfter_none, GenIter.next]

/-- The outputs of successive `GenIter.next` calls on a generator that
yields `vs` and then completes are exactly the entries of `vs`, with
`none` at every index past the end. -/
theorem yields_output {g : Generator sg Y R} {s : sg} {vs : List Y} {r : R}
    (h : Yields g s vs r) : ∀ k, GenIter.output g k (some s) = vs.get? k := by
  induction h with
  | @complete s s' r hres =>
    intro k
    cases k with
    | zero => simp [GenIter.output, GenIter.stateAfter, GenIter.next, hres]
    | succ k =>
      simp [GenIter.output, GenIter.stateAfter, GenIter.next, hres,
        GenIter.stateAfter_none]
  | @yield s s' v vs r hres htail ih =>
    intro k
    cases k with
    | zero => simp [GenIter.output, GenIter.stateAfter, GenIter.next, hres]
    | succ k =>
      have : GenIter.stateAfter g (k + 1) (some s) =
          GenIter.stateAfter g k (some s') := by
        simp [GenIter.stateAfter, GenIter.next, hres]
      simpa [GenIter.output, this] using ih k

/-- After the yields of `vs` are exhausted the slot is empty forever. -/
theorem yields_empty {g : Generator sg Y R} {s : sg} {vs : List Y} {r : R}
    (h : Yields g s vs r) :
    ∀ k, GenIter.stateAfter g (vs.length + 1 + k) (some s) = none := by
  induction h with
  | @complete s s' r hres =>
    intro k
    have h1 : GenIter.stateAfter g (k + 1) (some s) =
        GenIter.stateAfter g k none := by
      simp [GenIter.stateAfter, GenIter.next, hres]
    have h2 : ([] : List Y).length + 1 + k = k + 1 := by simp_arith
    rw [h2, h1, GenIter.stateAfter_none]
  | @yield s s' v vs r hres htail ih =>
    intro k
    have h1 : (v :: vs).length + 1 + k = (vs.length + 1 + k) + 1 := by
      simp; omega
    have h2 : GenIter.stateAfter g ((vs.length + 1 + k) + 1) (some s) =
        GenIter.stateAfter g (vs.length + 1 + k) (some s') := by
      simp [GenIter.stateAfter, GenIter.next, hres]
    rw [h1, h2]
    exact ih k

/-- `Iter` (src/gentrait.rs) performs the same slot transition as
`GenIter` (src/geniter.rs). -/
theorem iter_next_eq_genIter_next (g : Generator sg Y R) (st : Option sg) :
    Iter.next g st = GenIter.next g st := by
  cases st with
  | none => rfl
  | some s =>
    simp only [Iter.next, GenIter.next, GenTrait.next]
    rcases hres : g.resume s with ⟨y | r, s'⟩ <;> simp [hres]

/-- The list generator yields its list and completes with `()`. -/
theorem listGen_yields (l : List T) : Yields (listGen T) l l () := by
  induction l with
  | nil => exact Yields.complete rfl
  | cons x xs ih => exact Yields.yield rfl ih

/-- Prefixing rejected resume steps preserves the filtered trace. -/
theorem fyields_reject {g : Generator sg Y R} {p : Y → Bool} {s s' : sg}
    {y : Y} {l : List Y} {r : R} (hres : g.resume s = (GeneratorState.Yielded y, s'))
    (hp : p y = false) (h : FYields g p s' l r) : FYields g p s l r := by
  cases h with
  | done hc => exact FYields.done (FResume.reject hres hp hc)
  | step hy htail => exact FYields.step (FResume.reject hres hp hy) htail

/-- A failed back-extraction means the sequence was empty. -/
theorem next_back_eq_nil {T : Type u} {l : List T} (h : next_back l = none) :
    l = [] := by
  simp only [next_back] at h
  rcases hr : l.reverse with - | ⟨y, t⟩
  · exact List.reverse_eq_nil_iff.mp hr
  · rw [hr] at h; simp at h

/-- A successful back-extraction splits off the last element. -/
theorem next_back_eq_append {T : Type u} {l rest : List T} {y : T}
    (h : next_back l = some (y, rest)) : l = rest ++ [y] := by
  simp only [next_back] at h
  rcases hr : l.reverse with - | ⟨y', t⟩ <;> rw [hr] at h
  · simp at h
  · simp only [Option.some.injEq, Prod.mk.injEq] at h
    obtain ⟨h1, h2⟩ := h
    subst h1; subst h2
    rw [← List.reverse_reverse l, hr, List.reverse_cons]

/-- The alternation loop, run with enough fuel, interleaves the first half
of the sequence with the reversed second half. -/
theorem alternateAux_interleave {T : Type u} :
    ∀ (fuel : Nat) (l : List T), l.length ≤ fuel →
      alternateAux fuel l =
        interleave (l.take ((l.length + 1) / 2))
          ((l.drop ((l.length + 1) / 2)).reverse) := by
  intro fuel
  induction fuel with
  | zero =>
    intro l hl
    have hnil : l = [] := List.eq_nil_of_length_eq_zero (Nat.le_zero.mp hl)
    subst hnil
    simp [alternateAux, interleave]
  | succ fuel ih =>
    intro l hl
    cases l with
    | nil => simp [alternateAux, interleave]
    | cons x xs =>
      cases hnb : next_back xs with
      | none =>
        have hxs : xs = [] := next_back_eq_nil hnb
        subst hxs
        simp [alternateAux, next_back, interleave]
      | some yr =>
        obtain ⟨y, rest⟩ := yr
        have hxs : xs = rest ++ [y] := next_back_eq_append hnb
        subst hxs
        have hm : rest.length ≤ fuel := by
          simp only [List.length_cons, List.length_append, List.length_singleton,
            List.length_nil] at hl
          omega
        have hstep : alternateAux (fuel + 1) (x :: (rest ++ [y]))
            = x :: y :: alternateAux fuel rest := by
          simp [alternateAux, hnb]
        have harith : ((x :: (rest ++ [y])).length + 1) / 2
            = (rest.length + 1) / 2 + 1 := by
          simp only [List.length_cons, List.length_append, List.length_singleton,
            List.length_nil]
          omega
        have htake : (x :: (rest ++ [y])).take ((rest.length + 1) / 2 + 1)
            = x :: rest.take ((rest.length + 1) / 2) := by
          rw [List.take_succ_cons, List.take_append_of_le_length (by omega)]
        have hdrop : (x :: (rest ++ [y])).drop ((rest.length + 1) / 2 + 1)
            = rest.drop ((rest.length + 1) / 2) ++ [y] := by
          rw [List.drop_succ_cons, List.drop_append_of_le_length (by omega)]
        have hinter : interleave (x :: rest.take ((rest.length + 1) / 2))
              (y :: (rest.drop ((rest.length + 1) / 2)).reverse)
            = x :: y :: interleave (rest.take ((rest.length + 1) / 2))
              ((rest.drop ((rest.length + 1) / 2)).reverse) := by
          simp [interleave]
        rw [hstep, harith, htake, hdrop, List.reverse_append,
          List.reverse_singleton, List.singleton_append, hinter, ih rest hm]

/-! ## The claims -/

/-- C1: for a generator that yields `[v1..vn]` and then completes, the
wrapping iterator's successive `next()` calls return `some v1, …, some vn`
and `none` at every index past the end; after the yields are exhausted the
slot is empty and stays empty, and with an empty slot `next` returns
`none` without depending on the wrapped generator at all (it is never
resumed again).  `Iter` of src/gentrait.rs makes the same slot transition
as `GenIter` of src/geniter.rs. -/
theorem claim_C1_exhaustion {sg Y R : Type} (g : Generator sg Y R) (s : sg)
    (vs : List Y) (r : R) (h : Yields g s vs r) :
    (∀ k, GenIter.output g k (some s) = vs.get? k) ∧
    (∀ k, GenIter.stateAfter g (vs.length + 1 + k) (some s) = none) ∧
    (∀ k, GenIter.stateAfter g k (none : Option sg) = none) ∧
    (∀ g' : Generator sg Y R, GenIter.next g' none = GenIter.next g none) ∧
    (∀ st, Iter.next g st = GenIter.next g st) :=
  ⟨yields_output h, yields_empty h, GenIter.stateAfter_none g,
    fun _ => rfl, iter_next_eq_genIter_next g⟩

/-- Witness for C1 at the generator yielding `[5, 7]`. -/
theorem claim_C1_exhaustion_witness :
    GenIter.output (listGen Nat) 0 (some [5, 7]) = some 5 ∧
    GenIter.output (listGen Nat) 1 (some [5, 7]) = some 7 ∧
    GenIter.output (listGen Nat) 2 (some [5, 7]) = none ∧
    GenIter.stateAfter (listGen Nat) 3 (some [5, 7]) = none := by
  have h := claim_C1_exhaustion (listGen Nat) [5, 7] [5, 7] ()
    (Yields.yield rfl (Yields.yield rfl (Yields.complete rfl)))
  exact ⟨h.1 0, h.1 1, h.1 2, h.2.1 0⟩

/-- C2: `filter_while pred seq` yields the items of `seq` while `pred`
holds of each (`takeWhile`); the first failing item is consumed by the
check, and every item after it is yielded unconditionally (the tail of
`dropWhile`). -/
theorem claim_C2_filter_while {T : Type} (f : T → Bool) (l : List T) :
    filter_while f l = l.takeWhile f ++ (l.dropWhile f).drop 1 := by
  induction l with
  | nil => rfl
  | cons x xs ih =>
    cases hf : f x <;>
      simp [filter_while, List.takeWhile_cons, List.dropWhile_cons, hf, ih]

/-- C4: in all eight presence/absence cases, `islice seq start stop step`
is skip(start) if present, then step_by(step) if present, then take(stop)
if present, in that fixed order; on the characters of "ABCDEFGHI" with
start = 1, stop = 3, step = 2 it yields exactly 'B', 'D', 'F'. -/
theorem claim_C4_islice (T : Type) :
    (∀ (l : List T) (start stop step : Option Nat),
      islice l start stop step = isliceSpec l start stop step) ∧
    islice ("ABCDEFGHI".toList) (some 1) (some 3) (some 2) = ['B', 'D', 'F'] := by
  constructor
  · intro l start stop step
    cases start <;> cases stop <;> cases step <;> rfl
  · simp [islice, step_by]

/-- C5: `islice` with (start, stop, step) = (None, Some 3, Some 2) over a
mutable borrow of the counting sequence 1..=10 yields exactly [1, 3, 5],
and the borrowed range is left positioned so that its next read returns 6:
only the needed underlying items are consumed. -/
theorem claim_C5_islice_consumption :
    (collectAux (isliceNoneSomeSome rangeInclusive 2) 20
      (isliceNoneSomeSomeInit (1, 10) 3)).1 = [1, 3, 5] ∧
    (rangeInclusive.next (collectAux (isliceNoneSomeSome rangeInclusive 2) 20
      (isliceNoneSomeSomeInit (1, 10) 3)).2.1.1).1 = some 6 := by
  decide

/-- C8: `repeatn x n` yields `x` exactly `n` times — `some x` at every
index below `n`, `none` at every index past — and `repeatn x 0` is
immediately exhausted. -/
theorem claim_C8_repeatn {T : Type} (x : T) (n : Nat) :
    (∀ k, (repeatn x n).get? k = if k < n then some x else none) ∧
    repeatn x 0 = [] := by
  refine ⟨?_, rfl⟩
  intro k
  induction n generalizing k with
  | zero => simp [repeatn]
  | succ n ih =>
    cases k with
    | zero => simp [repeatn]
    | succ k => simpa [repeatn, Nat.succ_lt_succ_iff] using ih k

/-- C9: `alternate_by seq 0` never produces anything on its first
`next()`: for every sequence (including the empty one) and every fuel
bound, running the generator body from its initial state reaches neither
a yield nor a return — the outer loop spins forever. -/
theorem claim_C9_alternate_by_zero_diverges {T : Type} (l : List T) (fuel : Nat) :
    abRun 0 fuel (alternateByInit 0 l) = none := by
  have key : ∀ fuel (ph : ABPhase) (l : List T), abRun 0 fuel ⟨l, ph, 0⟩ = none := by
    intro fuel
    induction fuel with
    | zero => intro ph l; rfl
    | succ n ih => intro ph l; cases ph <;> simpa [abRun] using ih _ l
  exact key fuel ABPhase.front l

/-- Witness for C9 at the sequence `[1, 2, 3]` and fuel 5. -/
theorem claim_C9_alternate_by_zero_diverges_witness :
    abRun 0 5 (alternateByInit 0 [1, 2, 3]) = none :=
  claim_C9_alternate_by_zero_diverges [1, 2, 3] 5

/-- C10: `prepend v seq` yields `v` first and thereafter exactly the items
of `seq` in order. -/
theorem claim_C10_prepend {T : Type} (v : T) (l : List T) :
    (prepend v l).get? 0 = some v ∧
    (∀ k, (prepend v l).get? (k + 1) = l.get? k) :=
  ⟨rfl, fun _ => rfl⟩

/-- C6: one resume of `Map` performs exactly one resume of the inner
generator, turning `Yielded y` into `Yielded (f y)` (inner state advanced
identically) and passing `Complete r` through unchanged; consequently an
inner generator yielding `vs` gives a mapped generator yielding
`vs.map f`, `f` applied once per item. -/
theorem claim_C6_map {sg Y R U : Type} (g : Generator sg Y R) (f : Y → U) :
    (∀ s y s', g.resume s = (GeneratorState.Yielded y, s') →
      (Map g f).resume s = (GeneratorState.Yielded (f y), s')) ∧
    (∀ s r s', g.resume s = (GeneratorState.Complete r, s') →
      (Map g f).resume s = (GeneratorState.Complete r, s')) ∧
    (∀ s vs r, Yields g s vs r → Yields (Map g f) s (vs.map f) r) := by
  refine ⟨?_, ?_, ?_⟩
  · intro s y s' hres; simp [Map, hres]
  · intro s r s' hres; simp [Map, hres]
  · intro s vs r h
    induction h with
    | @complete s s' r hres =>
      have hmap : (Map g f).resume s = (GeneratorState.Complete r, s') := by
        simp [Map, hres]
      exact Yields.complete hmap
    | @yield s s' v vs r hres htail ih =>
      have hmap : (Map g f).resume s = (GeneratorState.Yielded (f v), s') := by
        simp [Map, hres]
      exact Yields.yield hmap ih

/-- Witness for C6: mapping `(· * 10)` over the generator yielding
`[1, 2, 3]` yields `[10, 20, 30]`. -/
theorem claim_C6_map_witness :
    Yields (Map (listGen Nat) (fun y => y * 10)) [1, 2, 3] [10, 20, 30] () := by
  have h := (claim_C6_map (listGen Nat) (fun y => y * 10)).2.2 [1, 2, 3] [1, 2, 3] ()
    (listGen_yields [1, 2, 3])
  simpa using h

/-- C7: one resume of `Filter` repeatedly resumes the inner generator
until an item satisfying the predicate is yielded or the inner generator
completes (result propagated unchanged); over a whole run, an inner
generator yielding `vs` gives a filtered trace of exactly `vs.filter p` —
rejected items discarded, accepted items in their original order. -/
theorem claim_C7_filter {sg Y R : Type} (g : Generator sg Y R) (p : Y → Bool)
    (s : sg) (vs : List Y) (r : R) (h : Yields g s vs r) :
    FYields g p s (vs.filter p) r := by
  induction h with
  | @complete s s' r hres =>
    exact FYields.done (FResume.complete hres)
  | @yield s s' v vs r hres htail ih =>
    cases hp : p v with
    | true =>
      rw [List.filter_cons_of_pos (by simp [hp])]
      exact FYields.step (FResume.accept hres hp) ih
    | false =>
      rw [List.filter_cons_of_neg (by simp [hp])]
      exact fyields_reject hres hp ih

/-- Witness for C7: filtering the generator yielding `[10, 20, 30]` with
the predicate `15 < ·` yields `[20, 30]`. -/
theorem claim_C7_filter_witness :
    FYields (listGen Nat) (fun y => decide (15 < y)) [10, 20, 30] [20, 30] () := by
  have h := claim_C7_filter (listGen Nat) (fun y => decide (15 < y))
    [10, 20, 30] [10, 20, 30] () (listGen_yields [10, 20, 30])
  simpa using h

/-- C3: `alternate seq` yields one item from the front, then one from the
back, alternating — its trace interleaves the first half of the sequence
with the reversed second half, ending exactly when an end-extraction finds
the remaining sequence empty (in the list model the first failed
extraction is the first moment nothing remains, so the whole alternation
stops there); over `[0..10)` it yields `0,9,1,8,2,7,3,6,4,5` and then
nothing. -/
theorem claim_C3_alternate (T : Type) :
    (∀ l : List T, alternate l =
      interleave (l.take ((l.length + 1) / 2))
        ((l.drop ((l.length + 1) / 2)).reverse)) ∧
    alternate (List.range 10) = [0, 9, 1, 8, 2, 7, 3, 6, 4, 5] := by
  constructor
  · intro l
    exact alternateAux_interleave l.length l (Nat.le_refl _)
  · decide

end Genertools
